import Mathlib

/-!
# Verification of the DEFLATE fixed-Huffman compressor

Shallow embedding of the compressor's components: the LZ77 hash-chain
matcher (`lz77_compress`), the RFC 1951 length/distance code tables
(`get_length_code`, `get_distance_code`), the LSB-first bit packer
(`write_bits`, `flush_bits`) and the block encoder (`deflateBytes`).
Machine integers are modelled as `Nat` with explicit `% 2 ^ 32` where the
C `uint32_t` accumulator can overflow; the unguarded store in `flush_bits`
is modelled with an explicit capacity check returning `Option`.
-/

namespace Deflate

/-- LZ77 token: the C struct `LZ77Token` is a tagged record, `literal ≥ 0`
meaning a literal byte and `literal = -1` a (length, distance) pair. -/
inductive Tok where
  | lit (b : Nat) : Tok
  | mat (len dist : Nat) : Tok
deriving DecidableEq, Repr

/-- `hash3`: `((data[0] << 10) ^ (data[1] << 5) ^ data[2]) & HASH_MASK`. -/
def hash3 (a b c : Nat) : Nat :=
  (((a <<< 10) ^^^ (b <<< 5)) ^^^ c) &&& 32767

/-- Length of the common prefix of `data[m..]` and `data[p..]`, capped at
`maxLen`: the inner `while (len < max_len && data[match_pos+len] == data[pos+len])`
loop of `lz77_compress`. -/
def commonLen (data : List Nat) : Nat → Nat → Nat → Nat
  | _, _, 0 => 0
  | m, p, maxLen + 1 =>
    if data.getD m 0 = data.getD p 0 then commonLen data (m + 1) (p + 1) maxLen + 1
    else 0

/-- The candidate update in the chain walk:
`if (len >= MIN_MATCH && len > best_length) { best_length = len; best_distance = distance; }`. -/
def updateBest (len dist bestLen bestDist : Nat) : Nat × Nat :=
  if 3 ≤ len ∧ bestLen < len then (len, dist) else (bestLen, bestDist)

/-- Matcher state: `hash_table` (head of each chain, `-1` = empty) and the
`prev` chain links.  The C arrays are modelled as functions; `prev` cells are
written before any position is published in `hash_table`, so every read the
search performs is of a written cell. -/
structure LZState where
  head : Nat → Int
  prev : Nat → Int

def initLZ : LZState := ⟨fun _ => -1, fun _ => -1⟩

/-- The hash-chain walk (`while (match_pos >= 0 && chain_len < 128)`), with
the remaining chain budget as fuel.  `matchPos` is the C `int match_pos`. -/
def chainWalk (data : List Nat) (prevf : Nat → Int) (size pos : Nat) :
    Int → Nat → Nat × Nat → Nat × Nat
  | _, 0, best => best
  | matchPos, fuel + 1, best =>
    if 0 ≤ matchPos then
      if 32768 < (pos : Int) - matchPos ∨ (pos : Int) - matchPos ≤ 0 then best
      else
        chainWalk data prevf size pos (prevf matchPos.toNat) fuel
          (updateBest
            (commonLen data matchPos.toNat pos
              (if size - pos < 258 then size - pos else 258))
            ((pos : Int) - matchPos).toNat best.1 best.2)
    else best

/-- Insert position `p` into the hash table:
`prev[p] = hash_table[h]; hash_table[h] = p;`. -/
def insertOne (data : List Nat) (st : LZState) (p : Nat) : LZState :=
  let h := hash3 (data.getD p 0) (data.getD (p + 1) 0) (data.getD (p + 2) 0)
  ⟨Function.update st.head h (Int.ofNat p),
   Function.update st.prev p (st.head h)⟩

/-- The post-match insertion loop
`for (i = 0; i < best_length && pos + i + 2 < size; i++)`, with `p` the
absolute position `pos + i` and `n` the remaining count. -/
def insertLoop (data : List Nat) (size : Nat) : LZState → Nat → Nat → LZState
  | st, _, 0 => st
  | st, p, n + 1 =>
    if p + 2 < size then insertLoop data size (insertOne data st p) (p + 1) n
    else st

/-- The "try to find a match" section of one iteration: guard
`pos + MIN_MATCH <= size`, hash the 3 bytes at `pos`, walk the chain for at
most 128 links starting from `hash_table[hash]`. -/
def findBest (data : List Nat) (size : Nat) (st : LZState) (pos : Nat) : Nat × Nat :=
  if pos + 3 ≤ size then
    chainWalk data st.prev size pos
      (st.head (hash3 (data.getD pos 0) (data.getD (pos + 1) 0) (data.getD (pos + 2) 0)))
      128 (0, 0)
  else (0, 0)

/-- Main matcher loop of `lz77_compress` (`while (pos < size)`), fuel-indexed:
each iteration advances `pos` by at least 1, so `size - pos` fuel suffices. -/
def lz77Main (data : List Nat) (size : Nat) : LZState → Nat → Nat → List Tok
  | _, _, 0 => []
  | st, pos, fuel + 1 =>
    if pos < size then
      let best := findBest data size st pos
      if 3 ≤ best.1 then
        Tok.mat best.1 best.2 ::
          lz77Main data size (insertLoop data size st pos best.1) (pos + best.1) fuel
      else
        Tok.lit (data.getD pos 0) ::
          lz77Main data size
            (if pos + 2 < size then insertOne data st pos else st) (pos + 1) fuel
    else []

/-- `lz77_compress`: the token stream for the whole input. -/
def lz77_compress (data : List Nat) : List Tok :=
  lz77Main data data.length initLZ 0 data.length

/-! ## RFC 1951 code tables -/

def length_base : List Nat :=
  [3, 4, 5, 6, 7, 8, 9, 10] ++ [11, 13, 15, 17, 19, 23, 27, 31] ++
  [35, 43, 51, 59, 67, 83, 99, 115] ++ [131, 163, 195, 227, 258]

def length_extra : List Nat :=
  [0, 0, 0, 0, 0, 0, 0, 0] ++ [1, 1, 1, 1, 2, 2, 2, 2] ++
  [3, 3, 3, 3, 4, 4, 4, 4] ++ [5, 5, 5, 5, 0]

def dist_base : List Nat :=
  [1, 2, 3, 4, 5, 7, 9, 13] ++ [17, 25, 33, 49, 65, 97, 129, 193] ++
  [257, 385, 513, 769, 1025, 1537, 2049, 3073] ++
  [4097, 6145, 8193, 12289, 16385, 24577]

def dist_extra : List Nat :=
  [0, 0, 0, 0, 1, 1, 2, 2] ++ [3, 3, 4, 4, 5, 5, 6, 6] ++
  [7, 7, 8, 8, 9, 9, 10, 10] ++ [11, 11, 12, 12, 13, 13]

/-- The search loop of `get_length_code`: first index `i` (from `i0`) with
`length_base[i] ≤ l` and (`i` last or `l < length_base[i+1]`); fuel-indexed. -/
def lengthLoop (l : Nat) : Nat → Nat → Option (Nat × Nat × Nat)
  | _, 0 => none
  | i, fuel + 1 =>
    if length_base.getD i 0 ≤ l ∧ (i = 28 ∨ l < length_base.getD (i + 1) 0) then
      some (257 + i, length_extra.getD i 0, l - length_base.getD i 0)
    else lengthLoop l (i + 1) fuel

/-- `get_length_code`: `none` models the C function returning without
setting its out-parameters (which the caller leaves at 0). -/
def get_length_code (l : Nat) : Option (Nat × Nat × Nat) :=
  lengthLoop l 0 29

/-- The search loop of `get_distance_code`. -/
def distLoop (d : Nat) : Nat → Nat → Option (Nat × Nat × Nat)
  | _, 0 => none
  | i, fuel + 1 =>
    if dist_base.getD i 0 ≤ d ∧ (i = 29 ∨ d < dist_base.getD (i + 1) 0) then
      some (i, dist_extra.getD i 0, d - dist_base.getD i 0)
    else distLoop d (i + 1) fuel

def get_distance_code (d : Nat) : Option (Nat × Nat × Nat) :=
  distLoop d 0 30

/-! ## Bit buffer -/

/-- The C `BitBuffer`: `uint32_t bits`, `int count`, the output bytes
written so far (`pos` = `output.length`), and the current capacity. -/
structure BitBuffer where
  bits : Nat
  count : Nat
  output : List Nat
  cap : Nat
deriving DecidableEq, Repr

def initBB (cap : Nat) : BitBuffer := ⟨0, 0, [], cap⟩

/-- One iteration of the drain loop body: double capacity if full, store
the low byte, shift the accumulator.  With `cap > 0` the store is always in
bounds after the doubling, so it is a plain append. -/
def emitByte (bb : BitBuffer) : BitBuffer :=
  { bb with cap := if bb.cap ≤ bb.output.length then bb.cap * 2 else bb.cap,
            output := bb.output ++ [bb.bits &&& 255],
            bits := bb.bits >>> 8, count := bb.count - 8 }

/-- The `while (bb->count >= 8)` drain loop, fuel-indexed (each step removes
8 pending bits, so `count` fuel suffices). -/
def drainLoop : Nat → BitBuffer → BitBuffer
  | 0, bb => bb
  | fuel + 1, bb => if 8 ≤ bb.count then drainLoop fuel (emitByte bb) else bb

/-- `write_bits`: or the value into the accumulator at the pending offset
(32-bit arithmetic), bump the count, drain whole bytes. -/
def write_bits (bb : BitBuffer) (v n : Nat) : BitBuffer :=
  drainLoop (bb.count + n)
    { bb with bits := (bb.bits ||| ((v <<< bb.count) % 2 ^ 32)) % 2 ^ 32,
              count := bb.count + n }

/-- `flush_bits`: the final store `bb->output[bb->pos++] = bb->bits & 0xFF`
has no capacity check; the out-of-bounds case is modelled as `none`. -/
def flush_bits (bb : BitBuffer) : Option BitBuffer :=
  if 0 < bb.count then
    if bb.output.length < bb.cap then
      some { bb with output := bb.output ++ [bb.bits &&& 255] }
    else none
  else some bb

/-! ## Block encoder -/

/-- The 5-bit reversal applied to distance codes before packing. -/
def rev5 (c : Nat) : Nat :=
  (List.range 5).foldl
    (fun r j => if c &&& (1 <<< j) ≠ 0 then r ||| (1 <<< (4 - j)) else r) 0

/-- The `write_bits` calls of one iteration of `deflate_compress`'s
emission loop, as (value, bit-count) pairs in call order.  The code lookups
always succeed for tokens the matcher emits (proved below); the
`getD (0, 0, 0)` default mirrors the caller's zero-initialised locals. -/
def tokCalls : Tok → List (Nat × Nat)
  | Tok.lit b =>
    if b ≤ 143 then [(0x30 + b, 8)] else [(0x190 + (b - 144), 9)]
  | Tok.mat len dist =>
    let lc := (get_length_code len).getD (0, 0, 0)
    let dc := (get_distance_code dist).getD (0, 0, 0)
    (if lc.1 ≤ 279 then [(lc.1 - 256, 7)] else [(0xC0 + (lc.1 - 280), 8)]) ++
    (if 0 < lc.2.1 then [(lc.2.2, lc.2.1)] else []) ++
    ([(rev5 dc.1, 5)] ++
    (if 0 < dc.2.1 then [(dc.2.2, dc.2.1)] else []))

/-- Run a sequence of `write_bits` calls left to right. -/
def runPacks (calls : List (Nat × Nat)) (bb : BitBuffer) : BitBuffer :=
  calls.foldl (fun b c => write_bits b c.1 c.2) bb

/-- All `write_bits` calls `deflate_compress` makes for a token stream:
the BFINAL=1 and BTYPE=01 header bits, each token's codes, and the 7-bit
end-of-block code. -/
def deflateCalls (toks : List Tok) : List (Nat × Nat) :=
  (1, 1) :: (1, 2) :: ((toks.map tokCalls).flatten ++ [(0, 7)])

/-- The whole bit-level emission of `deflate_compress` up to (not including)
the final flush: header, token bodies, end-of-block code, on a buffer of
`max(2 * input_size, 1024)` bytes. -/
def deflatePreFlush (data : List Nat) : BitBuffer :=
  runPacks (deflateCalls (lz77_compress data))
    (initBB (if 1024 < data.length * 2 then data.length * 2 else 1024))

/-- The compressed byte stream `deflate_compress` writes to the output
file (`none` would mean the unguarded flush store went out of bounds). -/
def deflateBytes (data : List Nat) : Option (List Nat) :=
  (flush_bits (deflatePreFlush data)).map BitBuffer.output

/-! ## Replay semantics of a token stream -/

/-- Byte-by-byte forward match copy: each step appends
`out[out.length − dist]`, so self-overlapping copies re-read bytes the same
copy has just produced. -/
def matchCopy (dist : Nat) : List Nat → Nat → List Nat
  | out, 0 => out
  | out, n + 1 => matchCopy dist (out ++ [out.getD (out.length - dist) 0]) n

/-- Replaying one token onto the reconstruction so far. -/
def replayTok (out : List Nat) : Tok → List Nat
  | Tok.lit b => out ++ [b]
  | Tok.mat len dist => matchCopy dist out len

/-- Replaying a token stream from an existing reconstruction. -/
def replayFrom (out : List Nat) (toks : List Tok) : List Nat :=
  toks.foldl replayTok out

/-- Full replay of a token stream from scratch. -/
def replay (toks : List Tok) : List Nat :=
  replayFrom [] toks

/-- How far a token advances the stream position. -/
def tokAdvance : Tok → Nat
  | Tok.lit _ => 1
  | Tok.mat len _ => len

/-- Sum of the advances of a token list. -/
def sumAdvance (toks : List Tok) : Nat :=
  (toks.map tokAdvance).sum

/-- Stream position at which token `i` of `toks` is emitted. -/
def streamPos (toks : List Tok) (i : Nat) : Nat :=
  sumAdvance (toks.take i)

/-- Validity of a match `(len, dist)` at stream position `p` of `data`:
the bounds of the claim plus byte-for-byte agreement of source and target. -/
def goodMatch (data : List Nat) (p len dist : Nat) : Prop :=
  3 ≤ len ∧ len ≤ 258 ∧ 1 ≤ dist ∧ dist ≤ 32768 ∧ dist ≤ p ∧
    p + len ≤ data.length ∧
    ∀ i, i < len → data.getD (p - dist + i) 0 = data.getD (p + i) 0

instance (data : List Nat) (p len dist : Nat) :
    Decidable (goodMatch data p len dist) := by
  unfold goodMatch; infer_instance

/-- Well-formedness of a token stream starting at position `p` of `data`:
literals carry the byte at their position, matches are `goodMatch`. -/
def tokensGood (data : List Nat) : Nat → List Tok → Prop
  | _, [] => True
  | p, Tok.lit b :: rest =>
    b = data.getD p 0 ∧ p < data.length ∧ tokensGood data (p + 1) rest
  | p, Tok.mat len dist :: rest =>
    goodMatch data p len dist ∧ tokensGood data (p + len) rest

/-! ## Reference inflate (correctness oracle) -/

/-- Bit `j` of a byte sequence, bytes in order, bits LSB first within a
byte (the RFC 1951 bit numbering of the packed stream). -/
def getBit (bytes : List Nat) (j : Nat) : Nat :=
  (bytes.getD (j / 8) 0 >>> (j % 8)) &&& 1

/-- Read `n` bits starting at stream bit `j`, LSB first (data fields). -/
def readLSB (bytes : List Nat) (j : Nat) : Nat → Nat
  | 0 => 0
  | n + 1 => getBit bytes j + 2 * readLSB bytes (j + 1) n

/-- Read `n` bits starting at stream bit `j`, building the value MSB
first (how a conformant decoder accumulates Huffman code bits). -/
def readMSB (bytes : List Nat) (j n : Nat) : Nat :=
  (List.range n).foldl (fun acc k => 2 * acc + getBit bytes (j + k)) 0

/-- Modelled from the spec: decoding of one fixed-Huffman literal/length
symbol per RFC 1951 §3.2.6 (codes read MSB first); no inflate exists in
`src/`, the spec names a reference raw-DEFLATE inflate as the round-trip
oracle.  Returns the symbol and the next bit position. -/
def decodeSym (bytes : List Nat) (j : Nat) : Option (Nat × Nat) :=
  let c7 := readMSB bytes j 7
  if c7 ≤ 23 then some (256 + c7, j + 7)
  else
    let c8 := readMSB bytes j 8
    if 48 ≤ c8 ∧ c8 ≤ 191 then some (c8 - 48, j + 8)
    else if 192 ≤ c8 ∧ c8 ≤ 199 then some (280 + (c8 - 192), j + 8)
    else
      let c9 := readMSB bytes j 9
      if 400 ≤ c9 ∧ c9 ≤ 511 then some (144 + (c9 - 400), j + 9)
      else none

/-- Modelled from the spec: the symbol-decoding loop of a reference
fixed-Huffman raw-DEFLATE inflate — literals are appended, lengths are
completed with LSB-first extra bits, distances are 5-bit MSB-first codes
plus extra bits, copies are byte-by-byte forward. -/
def inflateLoop (bytes : List Nat) : Nat → Nat → List Nat → Option (List Nat)
  | 0, _, _ => none
  | fuel + 1, j, out =>
    match decodeSym bytes j with
    | none => none
    | some (sym, j1) =>
      if sym = 256 then some out
      else if sym < 256 then inflateLoop bytes fuel j1 (out ++ [sym])
      else if 285 < sym then none
      else
        let i := sym - 257
        let len := length_base.getD i 0 + readLSB bytes j1 (length_extra.getD i 0)
        let j2 := j1 + length_extra.getD i 0
        let dc := readMSB bytes j2 5
        if 30 ≤ dc then none
        else
          let dist := dist_base.getD dc 0 + readLSB bytes (j2 + 5) (dist_extra.getD dc 0)
          let j3 := j2 + 5 + dist_extra.getD dc 0
          if dist = 0 ∨ out.length < dist then none
          else inflateLoop bytes fuel j3 (matchCopy dist out len)

/-- Modelled from the spec: a reference raw-DEFLATE inflate restricted to
what the compressor claims to emit — a single final fixed-Huffman block
(`BFINAL = 1`, `BTYPE = 1`). -/
def inflateFixed (bytes : List Nat) : Option (List Nat) :=
  if getBit bytes 0 = 1 ∧ readLSB bytes 1 2 = 1 then
    inflateLoop bytes (8 * bytes.length + 1) 3 []
  else none

/-! ## Bitstream semantics of the bit buffer -/

/-- Bit `j` of the emitted byte sequence, as a `Bool`. -/
def outBit (bytes : List Nat) (j : Nat) : Bool :=
  Nat.testBit (bytes.getD (j / 8) 0) (j % 8)

/-- Total number of bits held by a buffer: emitted bytes plus pending. -/
def totalBitsBB (bb : BitBuffer) : Nat :=
  8 * bb.output.length + bb.count

/-- Bit `j` of the whole bit content of a buffer: emitted bytes first,
then the pending accumulator bits. -/
def bufBit (bb : BitBuffer) (j : Nat) : Bool :=
  if j < 8 * bb.output.length then outBit bb.output j
  else Nat.testBit bb.bits (j - 8 * bb.output.length)

/-- The bits a single `pack(value, n)` call is meant to append: bit `k` of
`value` for `k = 0, …, n − 1`. -/
def callBits (v n : Nat) : List Bool :=
  (List.range n).map (Nat.testBit v)

/-- The bit stream a sequence of pack calls is meant to produce. -/
def streamOfCalls : List (Nat × Nat) → List Bool
  | [] => []
  | c :: rest => callBits c.1 c.2 ++ streamOfCalls rest

/-- Total bit count of a call sequence. -/
def totalCallBits (calls : List (Nat × Nat)) : Nat :=
  (calls.map Prod.snd).sum

/-- Precondition of each pack call (`cnt` = pending bits before the call):
the documented `value < 2 ^ n`, plus the bound `cnt + n ≤ 32` forced by the
`uint32_t` accumulator. -/
def goodCalls : Nat → List (Nat × Nat) → Prop
  | _, [] => True
  | cnt, c :: rest => c.1 < 2 ^ c.2 ∧ cnt + c.2 ≤ 32 ∧ goodCalls ((cnt + c.2) % 8) rest

instance : ∀ cnt calls, Decidable (goodCalls cnt calls)
  | _, [] => .isTrue trivial
  | cnt, c :: rest =>
    have : Decidable (goodCalls ((cnt + c.2) % 8) rest) := instDecidableGoodCalls _ _
    instDecidableAnd

/-- The documented precondition alone: `value < 2 ^ n` for every call. -/
def valuesFit (calls : List (Nat × Nat)) : Prop :=
  ∀ c ∈ calls, c.1 < 2 ^ c.2

instance (calls : List (Nat × Nat)) : Decidable (valuesFit calls) := by
  unfold valuesFit; infer_instance

/-! ## Number of bits each token contributes -/

/-- Bits packed for one token. -/
def tokBits (t : Tok) : Nat :=
  totalCallBits (tokCalls t)

/-! ## The `deflate_compress` entry point over an abstract file system -/

/-- Outcome environment for the I/O the C entry point performs: whether
`fopen` on the input succeeds, the input file's bytes, how many bytes
`fread` reports, whether `fopen` on the output succeeds, and how many bytes
`fwrite` manages to write. -/
structure FsEnv where
  inputOpenOk : Bool
  inputContent : List Nat
  readCount : Nat
  outputOpenOk : Bool
  writeCount : Nat
deriving DecidableEq, Repr

/-- `deflate_compress` over an `FsEnv`: the returned pair is the exit code
and the bytes landing in the output file (`none` = the output file was
never opened/created).  `fwrite`'s return value is not checked in the C,
so a short write still yields exit code 0. -/
def deflateRun (env : FsEnv) : Nat × Option (List Nat) :=
  if env.inputOpenOk = false then (1, none)
  else if 0 < env.inputContent.length ∧ env.readCount ≠ env.inputContent.length then
    (1, none)
  else if env.outputOpenOk = false then (1, none)
  else (0, some (((deflateBytes env.inputContent).getD []).take env.writeCount))

/-! ## The spec's §4.2 constants, for the table-refinement part of the
claims -/

/-- The length-base constants as listed in the spec. -/
def spec_length_base : List Nat :=
  [3, 4, 5, 6, 7] ++ [8, 9, 10, 11, 13] ++ [15, 17, 19, 23, 27] ++
  [31, 35, 43, 51, 59] ++ [67, 83, 99, 115, 131] ++ [163, 195, 227, 258]

/-- The length-extra constants as listed in the spec. -/
def spec_length_extra : List Nat :=
  [0, 0, 0, 0, 0] ++ [0, 0, 0, 1, 1] ++ [1, 1, 2, 2, 2] ++
  [2, 3, 3, 3, 3] ++ [4, 4, 4, 4, 5] ++ [5, 5, 5, 0]

/-- The distance-base constants as listed in the spec. -/
def spec_dist_base : List Nat :=
  [1, 2, 3, 4, 5] ++ [7, 9, 13, 17, 25] ++ [33, 49, 65, 97, 129] ++
  [193, 257, 385, 513, 769] ++ [1025, 1537, 2049, 3073, 4097] ++
  [6145, 8193, 12289, 16385, 24577]

/-- The distance-extra constants as listed in the spec. -/
def spec_dist_extra : List Nat :=
  [0, 0, 0, 0, 1] ++ [1, 2, 2, 3, 3] ++ [4, 4, 5, 5, 6] ++
  [6, 7, 7, 8, 8] ++ [9, 9, 10, 10, 11] ++ [11, 12, 12, 13, 13]

/-- The spec's range-lookup condition for a length at table index `i`. -/
def lenPred (l i : Nat) : Prop :=
  length_base.getD i 0 ≤ l ∧ (i = 28 ∨ l < length_base.getD (i + 1) 0)

instance (l i : Nat) : Decidable (lenPred l i) := by
  unfold lenPred; infer_instance

/-- The spec's range-lookup condition for a distance at table index `i`. -/
def distPred (d i : Nat) : Prop :=
  dist_base.getD i 0 ≤ d ∧ (i = 29 ∨ d < dist_base.getD (i + 1) 0)

instance (d i : Nat) : Decidable (distPred d i) := by
  unfold distPred; infer_instance

end Deflate

namespace Deflate

/-! # Theorems -/

/-! ## The hash-chain matcher -/

theorem commonLen_le (data : List Nat) :
    ∀ maxLen m p, commonLen data m p maxLen ≤ maxLen := by
  intro maxLen
  induction maxLen with
  | zero => intro m p; simp [commonLen]
  | succ k ih =>
    intro m p
    simp only [commonLen]
    split
    · exact Nat.succ_le_succ (ih (m + 1) (p + 1))
    · omega

theorem commonLen_eq (data : List Nat) :
    ∀ maxLen m p i, i < commonLen data m p maxLen →
      data.getD (m + i) 0 = data.getD (p + i) 0 := by
  intro maxLen
  induction maxLen with
  | zero => intro m p i h; simp [commonLen] at h
  | succ k ih =>
    intro m p i h
    simp only [commonLen] at h
    split at h
    · rename_i heq
      cases i with
      | zero => simpa using heq
      | succ j =>
        have hj := ih (m + 1) (p + 1) j (by omega)
        have hm : m + 1 + j = m + (j + 1) := by omega
        have hp : p + 1 + j = p + (j + 1) := by omega
        rwa [hm, hp] at hj
    · omega

theorem chainWalk_good (data : List Nat) (prevf : Nat → Int) (size pos : Nat)
    (hsize : size ≤ data.length) :
    ∀ fuel matchPos best,
      (3 ≤ best.1 → goodMatch data pos best.1 best.2) →
      3 ≤ (chainWalk data prevf size pos matchPos fuel best).1 →
      goodMatch data pos (chainWalk data prevf size pos matchPos fuel best).1
        (chainWalk data prevf size pos matchPos fuel best).2 := by
  intro fuel
  induction fuel with
  | zero => intro matchPos best hb; simpa [chainWalk] using hb
  | succ k ih =>
    intro matchPos best hb
    simp only [chainWalk]
    split
    · split
      · exact hb
      · rename_i hnn hrange
        push_neg at hrange
        obtain ⟨hd1, hd2⟩ := hrange
        apply ih
        by_cases hcond : 3 ≤ commonLen data matchPos.toNat pos
            (if size - pos < 258 then size - pos else 258) ∧
            best.1 < commonLen data matchPos.toNat pos
              (if size - pos < 258 then size - pos else 258)
        · simp only [updateBest, if_pos hcond]
          intro _
          have hlen := commonLen_le data
            (if size - pos < 258 then size - pos else 258) matchPos.toNat pos
          have hbytes := commonLen_eq data
            (if size - pos < 258 then size - pos else 258) matchPos.toNat pos
          have hm_lt : matchPos.toNat < pos := by omega
          have hdist : ((pos : Int) - matchPos).toNat = pos - matchPos.toNat := by omega
          have hmaxle : (if size - pos < 258 then size - pos else 258) ≤ 258 := by
            split <;> omega
          have hmaxsz : (if size - pos < 258 then size - pos else 258) ≤ size - pos := by
            split <;> omega
          simp only [goodMatch]
          refine ⟨hcond.1, by omega, by omega, by omega, by omega, by omega, ?_⟩
          intro i hi
          rw [hdist]
          have hrw : pos - (pos - matchPos.toNat) + i = matchPos.toNat + i := by omega
          rw [hrw]
          exact hbytes i hi
        · simp only [updateBest, if_neg hcond]
          exact hb
    · exact hb

theorem findBest_good (data : List Nat) (size : Nat) (st : LZState) (pos : Nat)
    (hsize : size ≤ data.length) :
    3 ≤ (findBest data size st pos).1 →
      goodMatch data pos (findBest data size st pos).1 (findBest data size st pos).2 := by
  unfold findBest
  split
  · exact chainWalk_good data st.prev size pos hsize 128 _ (0, 0)
      (fun h => absurd h (by decide))
  · exact fun h => absurd h (by decide)

theorem lz77Main_spec (data : List Nat) :
    ∀ fuel st pos, data.length - pos ≤ fuel →
      tokensGood data pos (lz77Main data data.length st pos fuel) ∧
      sumAdvance (lz77Main data data.length st pos fuel) = data.length - pos := by
  intro fuel
  induction fuel with
  | zero =>
    intro st pos hf
    refine ⟨trivial, ?_⟩
    simp only [lz77Main, sumAdvance, List.map_nil, List.sum_nil]
    omega
  | succ k ih =>
    intro st pos hf
    simp only [lz77Main]
    split
    · rename_i hpos
      split
      · rename_i hb3
        have hgood := findBest_good data data.length st pos le_rfl hb3
        have hadv : pos + (findBest data data.length st pos).1 ≤ data.length :=
          hgood.2.2.2.2.2.1
        have h3 : 3 ≤ (findBest data data.length st pos).1 := hb3
        obtain ⟨ihg, ihs⟩ := ih (insertLoop data data.length st pos
            (findBest data data.length st pos).1)
          (pos + (findBest data data.length st pos).1) (by omega)
        refine ⟨⟨hgood, ihg⟩, ?_⟩
        simp only [sumAdvance, List.map_cons, List.sum_cons, tokAdvance]
        simp only [sumAdvance] at ihs
        omega
      · rename_i hb3
        obtain ⟨ihg, ihs⟩ := ih
          (if pos + 2 < data.length then insertOne data st pos else st)
          (pos + 1) (by omega)
        refine ⟨⟨rfl, hpos, ihg⟩, ?_⟩
        simp only [sumAdvance, List.map_cons, List.sum_cons, tokAdvance]
        simp only [sumAdvance] at ihs
        omega
    · rename_i hpos
      refine ⟨trivial, ?_⟩
      simp only [sumAdvance, List.map_nil, List.sum_nil]
      omega

/-! ## Replay of a well-formed token stream -/

theorem getD_take (l : List Nat) (n j : Nat) (h : j < n) :
    (l.take n).getD j 0 = l.getD j 0 := by
  simp [List.getD_eq_getElem?_getD, List.getElem?_take, h]

theorem take_push (l : List Nat) (q : Nat) (h : q < l.length) :
    l.take q ++ [l.getD q 0] = l.take (q + 1) := by
  rw [List.take_succ, List.getElem?_eq_getElem h]
  simp [List.getD_eq_getElem?_getD, List.getElem?_eq_getElem h]

theorem matchCopy_take_aux (data : List Nat) (pos len dist : Nat)
    (h1 : 1 ≤ dist) (hdp : dist ≤ pos) (hlen : pos + len ≤ data.length)
    (hbytes : ∀ i, i < len → data.getD (pos - dist + i) 0 = data.getD (pos + i) 0) :
    ∀ k q, pos ≤ q → q + k ≤ pos + len →
      matchCopy dist (data.take q) k = data.take (q + k) := by
  intro k
  induction k with
  | zero => intro q _ _; simp [matchCopy]
  | succ j ih =>
    intro q hq hqk
    have hql : q < data.length := by omega
    have hlt : (data.take q).length = q := by
      rw [List.length_take]; omega
    simp only [matchCopy, hlt]
    have hgd : (data.take q).getD (q - dist) 0 = data.getD (q - dist) 0 :=
      getD_take data q (q - dist) (by omega)
    have hqi : q - dist = pos - dist + (q - pos) := by omega
    have hcopy : data.getD (q - dist) 0 = data.getD q 0 := by
      rw [hqi]
      have hb := hbytes (q - pos) (by omega)
      rw [hb]
      congr 1
      omega
    rw [hgd, hcopy, take_push data q hql]
    have hih := ih (q + 1) (by omega) (by omega)
    rw [hih]
    congr 1
    omega

theorem matchCopy_take (data : List Nat) (pos len dist : Nat)
    (h1 : 1 ≤ dist) (hdp : dist ≤ pos) (hlen : pos + len ≤ data.length)
    (hbytes : ∀ i, i < len → data.getD (pos - dist + i) 0 = data.getD (pos + i) 0) :
    matchCopy dist (data.take pos) len = data.take (pos + len) :=
  matchCopy_take_aux data pos len dist h1 hdp hlen hbytes len pos le_rfl le_rfl

theorem replayFrom_good (data : List Nat) :
    ∀ toks p, tokensGood data p toks →
      replayFrom (data.take p) toks = data.take (p + sumAdvance toks) := by
  intro toks
  induction toks with
  | nil => intro p _; simp [replayFrom, sumAdvance]
  | cons t rest ih =>
    intro p hg
    cases t with
    | lit b =>
      obtain ⟨hb, hp, hrest⟩ := hg
      simp only [replayFrom, List.foldl_cons, replayTok]
      rw [hb, take_push data p hp]
      have hr := ih (p + 1) hrest
      simp only [replayFrom] at hr
      rw [hr]
      congr 1
      simp only [sumAdvance, List.map_cons, List.sum_cons, tokAdvance]
      omega
    | mat len dist =>
      obtain ⟨hm, hrest⟩ := hg
      simp only [replayFrom, List.foldl_cons, replayTok]
      rw [matchCopy_take data p len dist hm.2.2.1 hm.2.2.2.2.1 hm.2.2.2.2.2.1
        hm.2.2.2.2.2.2]
      have hr := ih (p + len) hrest
      simp only [replayFrom] at hr
      rw [hr]
      congr 1
      simp only [sumAdvance, List.map_cons, List.sum_cons, tokAdvance]
      omega

end Deflate

namespace Deflate

theorem getD_append_lt (l l' : List Nat) (i : Nat) (h : i < l.length) :
    (l ++ l').getD i 0 = l.getD i 0 := by
  simp [List.getD_eq_getElem?_getD, List.getElem?_append_left h]

theorem getD_append_ge (l l' : List Nat) (i : Nat) (h : l.length ≤ i) :
    (l ++ l').getD i 0 = l'.getD (i - l.length) 0 := by
  simp [List.getD_eq_getElem?_getD, List.getElem?_append_right h]

theorem bufBit_emitByte (bb : BitBuffer) (j : Nat) :
    bufBit (emitByte bb) j = bufBit bb j := by
  simp only [bufBit, emitByte, outBit, List.length_append, List.length_cons,
    List.length_nil]
  by_cases hj1 : j < 8 * bb.output.length
  · rw [if_pos (by omega), if_pos hj1]
    have hdiv : j / 8 < bb.output.length := by omega
    rw [getD_append_lt _ _ _ hdiv]
  · by_cases hj2 : j < 8 * (bb.output.length + (0 + 1))
    · rw [if_pos (by omega), if_neg hj1]
      have hdiv : j / 8 = bb.output.length := by omega
      have hmod : j % 8 = j - 8 * bb.output.length := by omega
      rw [hdiv, getD_append_ge _ _ _ (by omega)]
      simp only [Nat.sub_self, List.getD_cons_zero]
      rw [hmod, Nat.testBit_and]
      have h255 : Nat.testBit 255 (j - 8 * bb.output.length) = true := by
        have h2 : (255 : Nat) = 2 ^ 8 - 1 := by norm_num
        rw [h2, Nat.testBit_two_pow_sub_one]
        simp only [decide_eq_true_eq]
        omega
      rw [h255, Bool.and_true]
    · rw [if_neg (by omega), if_neg hj1]
      rw [Nat.testBit_shiftRight]
      congr 1
      omega

theorem drainLoop_spec : ∀ fuel bb, bb.count ≤ fuel + 7 →
    (drainLoop fuel bb).count = bb.count % 8 ∧
    totalBitsBB (drainLoop fuel bb) = totalBitsBB bb ∧
    (∀ j, bufBit (drainLoop fuel bb) j = bufBit bb j) ∧
    (bb.bits < 2 ^ bb.count → (drainLoop fuel bb).bits < 2 ^ (drainLoop fuel bb).count) ∧
    bb.cap ≤ (drainLoop fuel bb).cap := by
  intro fuel
  induction fuel with
  | zero =>
    intro bb hf
    exact ⟨by simp only [drainLoop]; omega, rfl, fun j => rfl, fun h => h, le_rfl⟩
  | succ k ih =>
    intro bb hf
    simp only [drainLoop]
    split
    · rename_i h8
      obtain ⟨ihc, iht, ihb, ihlt, ihcap⟩ := ih (emitByte bb) (by simp [emitByte]; omega)
      refine ⟨?_, ?_, ?_, ?_, ?_⟩
      · rw [ihc]; simp only [emitByte]; omega
      · rw [iht]; simp only [totalBitsBB, emitByte, List.length_append,
          List.length_cons, List.length_nil]; omega
      · intro j; rw [ihb j, bufBit_emitByte bb j]
      · intro hlt
        apply ihlt
        simp only [emitByte]
        rw [Nat.shiftRight_eq_div_pow]
        apply Nat.div_lt_of_lt_mul
        rw [← pow_add]
        have hc : 8 + (bb.count - 8) = bb.count := by omega
        rw [hc]
        exact hlt
      · refine le_trans ?_ ihcap
        simp only [emitByte]
        split <;> omega
    · rename_i h8
      push_neg at h8
      exact ⟨by omega, rfl, fun j => rfl, fun h => h, le_rfl⟩

end Deflate

namespace Deflate

theorem write_bits_total (bb : BitBuffer) (v n : Nat) :
    totalBitsBB (write_bits bb v n) = totalBitsBB bb + n ∧
    bb.cap ≤ (write_bits bb v n).cap ∧
    (write_bits bb v n).count = (bb.count + n) % 8 := by
  unfold write_bits
  obtain ⟨hc, ht, hb, hlt, hcap⟩ := drainLoop_spec (bb.count + n)
    { bb with bits := (bb.bits ||| ((v <<< bb.count) % 2 ^ 32)) % 2 ^ 32,
              count := bb.count + n } (Nat.le_add_right _ 7)
  refine ⟨?_, hcap, hc⟩
  rw [ht]
  simp only [totalBitsBB]
  omega

theorem write_bits_stream_spec (bb : BitBuffer) (v n : Nat) (hcnt : bb.count < 8)
    (hbits : bb.bits < 2 ^ bb.count) (hv : v < 2 ^ n) (h32 : bb.count + n ≤ 32) :
    (write_bits bb v n).bits < 2 ^ (write_bits bb v n).count ∧
    (∀ j, j < totalBitsBB bb → bufBit (write_bits bb v n) j = bufBit bb j) ∧
    (∀ k, k < n → bufBit (write_bits bb v n) (totalBitsBB bb + k) = Nat.testBit v k) := by
  have hpow : (2 : Nat) ^ (bb.count + n) ≤ 2 ^ 32 := Nat.pow_le_pow_right (by omega) h32
  have hshl : v <<< bb.count < 2 ^ (bb.count + n) := by
    rw [Nat.shiftLeft_eq, Nat.add_comm bb.count n, pow_add]
    exact Nat.mul_lt_mul_of_lt_of_le hv le_rfl (by positivity)
  have hbits2 : bb.bits < 2 ^ (bb.count + n) :=
    lt_of_lt_of_le hbits (Nat.pow_le_pow_right (by omega) (by omega))
  have hor : bb.bits ||| (v <<< bb.count) < 2 ^ (bb.count + n) :=
    Nat.or_lt_two_pow hbits2 hshl
  have hmod1 : (v <<< bb.count) % 2 ^ 32 = v <<< bb.count :=
    Nat.mod_eq_of_lt (lt_of_lt_of_le hshl hpow)
  have hmod2 : (bb.bits ||| (v <<< bb.count)) % 2 ^ 32 = bb.bits ||| (v <<< bb.count) :=
    Nat.mod_eq_of_lt (lt_of_lt_of_le hor hpow)
  have hlow : ∀ r, r < bb.count →
      Nat.testBit (bb.bits ||| (v <<< bb.count)) r = Nat.testBit bb.bits r := by
    intro r hr
    rw [Nat.testBit_or, Nat.testBit_shiftLeft]
    have hd : decide (bb.count ≤ r) = false := by simp; omega
    rw [hd, Bool.false_and, Bool.or_false]
  have hhigh : ∀ k, k < n →
      Nat.testBit (bb.bits ||| (v <<< bb.count)) (bb.count + k) = Nat.testBit v k := by
    intro k hk
    rw [Nat.testBit_or, Nat.testBit_shiftLeft]
    have hb0 : Nat.testBit bb.bits (bb.count + k) = false :=
      Nat.testBit_lt_two_pow
        (lt_of_lt_of_le hbits (Nat.pow_le_pow_right (by omega) (by omega)))
    have hd : decide (bb.count ≤ bb.count + k) = true := by simp
    rw [hb0, hd, Bool.true_and, Bool.false_or]
    congr 1
    omega
  unfold write_bits
  simp only [hmod1, hmod2]
  obtain ⟨hc, ht, hbuf, hlt, hcap⟩ := drainLoop_spec (bb.count + n)
    { bb with bits := bb.bits ||| (v <<< bb.count),
              count := bb.count + n } (Nat.le_add_right _ 7)
  refine ⟨hlt hor, ?_, ?_⟩
  · intro j hj
    rw [hbuf j]
    simp only [bufBit, totalBitsBB] at hj ⊢
    by_cases hj1 : j < 8 * bb.output.length
    · rw [if_pos hj1, if_pos hj1]
    · rw [if_neg hj1, if_neg hj1]
      exact hlow (j - 8 * bb.output.length) (by omega)
  · intro k hk
    rw [hbuf (totalBitsBB bb + k)]
    simp only [bufBit, totalBitsBB]
    rw [if_neg (by omega)]
    have hidx : 8 * bb.output.length + bb.count + k - 8 * bb.output.length =
        bb.count + k := by omega
    rw [hidx]
    exact hhigh k hk

theorem write_bits_inv (bb : BitBuffer) (v n : Nat) (hbits : bb.bits < 2 ^ bb.count)
    (hv : v < 2 ^ n) :
    (write_bits bb v n).bits < 2 ^ (write_bits bb v n).count ∧
    (write_bits bb v n).count < 8 := by
  have hshl : v <<< bb.count < 2 ^ (bb.count + n) := by
    rw [Nat.shiftLeft_eq, Nat.add_comm bb.count n, pow_add]
    exact Nat.mul_lt_mul_of_lt_of_le hv le_rfl (by positivity)
  have hbits2 : bb.bits < 2 ^ (bb.count + n) :=
    lt_of_lt_of_le hbits (Nat.pow_le_pow_right (by omega) (by omega))
  have hor : bb.bits ||| ((v <<< bb.count) % 2 ^ 32) < 2 ^ (bb.count + n) :=
    Nat.or_lt_two_pow hbits2 (lt_of_le_of_lt (Nat.mod_le _ _) hshl)
  have hlt2 : (bb.bits ||| ((v <<< bb.count) % 2 ^ 32)) % 2 ^ 32 < 2 ^ (bb.count + n) :=
    lt_of_le_of_lt (Nat.mod_le _ _) hor
  unfold write_bits
  obtain ⟨hc, ht, hbuf, hlt, hcap⟩ := drainLoop_spec (bb.count + n)
    { bb with bits := (bb.bits ||| ((v <<< bb.count) % 2 ^ 32)) % 2 ^ 32,
              count := bb.count + n } (Nat.le_add_right _ 7)
  exact ⟨hlt hlt2, by rw [hc]; omega⟩

end Deflate

namespace Deflate

theorem getD_append_left {A : Type} (l l' : List A) (d : A) (i : Nat) (h : i < l.length) :
    (l ++ l').getD i d = l.getD i d := by
  simp [List.getD_eq_getElem?_getD, List.getElem?_append_left h]

theorem getD_append_right {A : Type} (l l' : List A) (d : A) (i : Nat) (h : l.length ≤ i) :
    (l ++ l').getD i d = l'.getD (i - l.length) d := by
  simp [List.getD_eq_getElem?_getD, List.getElem?_append_right h]

theorem callBits_getD (v n k : Nat) (h : k < n) :
    (callBits v n).getD k false = Nat.testBit v k := by
  simp [callBits, List.getD_eq_getElem?_getD, List.getElem?_map, List.getElem?_range h]

theorem callBits_length (v n : Nat) : (callBits v n).length = n := by
  simp [callBits]

theorem runPacks_spec : ∀ calls bb, bb.count < 8 → bb.bits < 2 ^ bb.count →
    goodCalls bb.count calls →
    (runPacks calls bb).count < 8 ∧
    (runPacks calls bb).bits < 2 ^ (runPacks calls bb).count ∧
    totalBitsBB (runPacks calls bb) = totalBitsBB bb + totalCallBits calls ∧
    (∀ j, j < totalBitsBB bb → bufBit (runPacks calls bb) j = bufBit bb j) ∧
    (∀ k, k < totalCallBits calls →
      bufBit (runPacks calls bb) (totalBitsBB bb + k) = (streamOfCalls calls).getD k false) := by
  intro calls
  induction calls with
  | nil =>
    intro bb h1 h2 _
    exact ⟨h1, h2, by simp [runPacks, totalCallBits], fun j _ => rfl,
      fun k hk => absurd hk (by simp [totalCallBits])⟩
  | cons c rest ih =>
    intro bb h1 h2 hg
    obtain ⟨hv, h32, hgrest⟩ := hg
    obtain ⟨ht1, hcap1, hc1⟩ := write_bits_total bb c.1 c.2
    obtain ⟨hb1, hpres1, hnew1⟩ := write_bits_stream_spec bb c.1 c.2 h1 h2 hv h32
    have hc1lt : (write_bits bb c.1 c.2).count < 8 := by rw [hc1]; omega
    have hrw : runPacks (c :: rest) bb = runPacks rest (write_bits bb c.1 c.2) := by
      simp [runPacks]
    obtain ⟨ih1, ih2, ih3, ih4, ih5⟩ :=
      ih (write_bits bb c.1 c.2) hc1lt hb1 (by rw [hc1]; exact hgrest)
    rw [hrw]
    have htot : totalCallBits (c :: rest) = c.2 + totalCallBits rest := by
      simp [totalCallBits]
    refine ⟨ih1, ih2, ?_, ?_, ?_⟩
    · rw [ih3, ht1, htot]; omega
    · intro j hj
      rw [ih4 j (by omega), hpres1 j hj]
    · intro k hk
      by_cases hkc : k < c.2
      · rw [ih4 (totalBitsBB bb + k) (by omega), hnew1 k hkc]
        simp only [streamOfCalls]
        rw [getD_append_left _ _ _ k (by rw [callBits_length]; exact hkc),
          callBits_getD c.1 c.2 k hkc]
      · have hk2 : k - c.2 < totalCallBits rest := by rw [htot] at hk; omega
        have hidx : totalBitsBB bb + k =
            totalBitsBB (write_bits bb c.1 c.2) + (k - c.2) := by omega
        rw [hidx, ih5 (k - c.2) hk2]
        simp only [streamOfCalls]
        rw [getD_append_right _ _ _ k (by rw [callBits_length]; omega),
          callBits_length]

theorem runPacks_inv : ∀ calls bb, bb.count < 8 → bb.bits < 2 ^ bb.count →
    valuesFit calls →
    (runPacks calls bb).count < 8 ∧
    (runPacks calls bb).bits < 2 ^ (runPacks calls bb).count := by
  intro calls
  induction calls with
  | nil => intro bb h1 h2 _; exact ⟨h1, h2⟩
  | cons c rest ih =>
    intro bb h1 h2 hfit
    have hv : c.1 < 2 ^ c.2 := hfit c (by simp)
    obtain ⟨hb1, hc1⟩ := write_bits_inv bb c.1 c.2 h2 hv
    have hrw : runPacks (c :: rest) bb = runPacks rest (write_bits bb c.1 c.2) := by
      simp [runPacks]
    rw [hrw]
    exact ih (write_bits bb c.1 c.2) hc1 hb1 (fun d hd => hfit d (by simp [hd]))

theorem flush_outBit (bb : BitBuffer) (bbf : BitBuffer) (hc : bb.count < 8)
    (hf : flush_bits bb = some bbf) :
    ∀ j, j < totalBitsBB bb → outBit bbf.output j = bufBit bb j := by
  unfold flush_bits at hf
  split at hf
  · rename_i hpos
    split at hf
    · rename_i hcap
      have hbf : bbf = { bb with output := bb.output ++ [bb.bits &&& 255] } := by
        injection hf with h
        exact h.symm
      subst hbf
      intro j hj
      simp only [totalBitsBB] at hj
      simp only [bufBit, outBit]
      by_cases hj1 : j < 8 * bb.output.length
      · rw [if_pos hj1]
        exact congrArg (fun x => Nat.testBit x (j % 8))
          (getD_append_left _ _ _ _ (by omega))
      · rw [if_neg hj1]
        have hdiv : j / 8 = bb.output.length := by omega
        have hmod : j % 8 = j - 8 * bb.output.length := by omega
        rw [hdiv, getD_append_right _ _ _ _ le_rfl, Nat.sub_self, List.getD_cons_zero,
          hmod, Nat.testBit_and]
        have h255 : Nat.testBit 255 (j - 8 * bb.output.length) = true := by
          have h2 : (255 : Nat) = 2 ^ 8 - 1 := by norm_num
          rw [h2, Nat.testBit_two_pow_sub_one]
          simp only [decide_eq_true_eq]
          omega
        rw [h255, Bool.and_true]
    · exact absurd hf (by simp)
  · rename_i hpos
    have hbf : bbf = bb := by injection hf with h; exact h.symm
    subst hbf
    intro j hj
    simp only [totalBitsBB] at hj
    simp only [bufBit, outBit]
    rw [if_pos (by omega)]

end Deflate
namespace Deflate

theorem streamPos_zero (toks : List Tok) : streamPos toks 0 = 0 := by
  simp [streamPos, sumAdvance]

theorem streamPos_cons (t : Tok) (rest : List Tok) (j : Nat) :
    streamPos (t :: rest) (j + 1) = tokAdvance t + streamPos rest j := by
  simp [streamPos, sumAdvance, List.take_succ_cons]

theorem tokensGood_get (data : List Nat) :
    ∀ toks p i len dist, tokensGood data p toks →
      toks[i]? = some (Tok.mat len dist) →
      goodMatch data (p + streamPos toks i) len dist := by
  intro toks
  induction toks with
  | nil => intro p i len dist _ hget; simp at hget
  | cons t rest ih =>
    intro p i len dist hg hget
    cases i with
    | zero =>
      rw [List.getElem?_cons_zero] at hget
      cases t with
      | lit b => simp at hget
      | mat l d =>
        have hl : l = len ∧ d = dist := by
          simpa [Tok.mat.injEq] using hget
        obtain ⟨hl1, hl2⟩ := hl
        subst hl1; subst hl2
        rw [streamPos_zero, Nat.add_zero]
        exact hg.1
    | succ j =>
      rw [List.getElem?_cons_succ] at hget
      cases t with
      | lit b =>
        obtain ⟨hb, hp, hrest⟩ := hg
        have hih := ih (p + 1) j len dist hrest hget
        have heq : p + streamPos (Tok.lit b :: rest) (j + 1) = p + 1 + streamPos rest j := by
          rw [streamPos_cons]
          simp [tokAdvance]
          omega
        rw [heq]
        exact hih
      | mat l d =>
        obtain ⟨hm, hrest⟩ := hg
        have hih := ih (p + l) j len dist hrest hget
        have heq : p + streamPos (Tok.mat l d :: rest) (j + 1) = p + l + streamPos rest j := by
          rw [streamPos_cons]
          simp [tokAdvance]
          omega
        rw [heq]
        exact hih

end Deflate

namespace Deflate

theorem lengthLoop_first : ∀ fuel i0 l i, i0 ≤ i → i < i0 + fuel →
    (∀ j, i0 ≤ j → j < i → ¬ lenPred l j) → lenPred l i →
    lengthLoop l i0 fuel =
      some (257 + i, length_extra.getD i 0, l - length_base.getD i 0) := by
  intro fuel
  induction fuel with
  | zero => intro i0 l i h1 h2 _ _; omega
  | succ k ih =>
    intro i0 l i h1 h2 hnone hp
    simp only [lengthLoop]
    by_cases h0 : i0 = i
    · subst h0
      have hp' : length_base.getD i0 0 ≤ l ∧
          (i0 = 28 ∨ l < length_base.getD (i0 + 1) 0) := hp
      rw [if_pos hp']
    · have hnp : ¬ (length_base.getD i0 0 ≤ l ∧
          (i0 = 28 ∨ l < length_base.getD (i0 + 1) 0)) :=
        hnone i0 le_rfl (by omega)
      rw [if_neg hnp]
      exact ih (i0 + 1) l i (by omega) (by omega)
        (fun j hj1 hj2 => hnone j (by omega) hj2) hp

theorem lenPred_unique (l i j : Nat) (hi : i < 29) (hj : j < 29)
    (h1 : lenPred l i) (h2 : lenPred l j) : i = j := by
  have hmono : ∀ a, a < 29 → ∀ b, b < 29 → a ≤ b →
      length_base.getD a 0 ≤ length_base.getD b 0 := by decide
  rcases Nat.lt_trichotomy i j with h | h | h
  · exfalso
    have hne : i ≠ 28 := by omega
    have hlt : l < length_base.getD (i + 1) 0 := h1.2.resolve_left hne
    have hle : length_base.getD (i + 1) 0 ≤ length_base.getD j 0 :=
      hmono (i + 1) (by omega) j hj (by omega)
    have hbj := h2.1
    omega
  · exact h
  · exfalso
    have hne : j ≠ 28 := by omega
    have hlt : l < length_base.getD (j + 1) 0 := h2.2.resolve_left hne
    have hle : length_base.getD (j + 1) 0 ≤ length_base.getD i 0 :=
      hmono (j + 1) (by omega) i hi (by omega)
    have hbi := h1.1
    omega

theorem get_length_code_eq (l i : Nat) (hi : i < 29) (hp : lenPred l i) :
    get_length_code l =
      some (257 + i, length_extra.getD i 0, l - length_base.getD i 0) := by
  unfold get_length_code
  refine lengthLoop_first 29 0 l i (Nat.zero_le i) (by omega) ?_ hp
  intro j hj1 hj2 hcontra
  exact absurd (lenPred_unique l j i (by omega) hi hcontra hp) (by omega)

theorem distLoop_first : ∀ fuel i0 d i, i0 ≤ i → i < i0 + fuel →
    (∀ j, i0 ≤ j → j < i → ¬ distPred d j) → distPred d i →
    distLoop d i0 fuel =
      some (i, dist_extra.getD i 0, d - dist_base.getD i 0) := by
  intro fuel
  induction fuel with
  | zero => intro i0 d i h1 h2 _ _; omega
  | succ k ih =>
    intro i0 d i h1 h2 hnone hp
    simp only [distLoop]
    by_cases h0 : i0 = i
    · subst h0
      have hp' : dist_base.getD i0 0 ≤ d ∧
          (i0 = 29 ∨ d < dist_base.getD (i0 + 1) 0) := hp
      rw [if_pos hp']
    · have hnp : ¬ (dist_base.getD i0 0 ≤ d ∧
          (i0 = 29 ∨ d < dist_base.getD (i0 + 1) 0)) :=
        hnone i0 le_rfl (by omega)
      rw [if_neg hnp]
      exact ih (i0 + 1) d i (by omega) (by omega)
        (fun j hj1 hj2 => hnone j (by omega) hj2) hp

theorem distPred_unique (d i j : Nat) (hi : i < 30) (hj : j < 30)
    (h1 : distPred d i) (h2 : distPred d j) : i = j := by
  have hmono : ∀ a, a < 30 → ∀ b, b < 30 → a ≤ b →
      dist_base.getD a 0 ≤ dist_base.getD b 0 := by decide
  rcases Nat.lt_trichotomy i j with h | h | h
  · exfalso
    have hne : i ≠ 29 := by omega
    have hlt : d < dist_base.getD (i + 1) 0 := h1.2.resolve_left hne
    have hle : dist_base.getD (i + 1) 0 ≤ dist_base.getD j 0 :=
      hmono (i + 1) (by omega) j hj (by omega)
    have hbj := h2.1
    omega
  · exact h
  · exfalso
    have hne : j ≠ 29 := by omega
    have hlt : d < dist_base.getD (j + 1) 0 := h2.2.resolve_left hne
    have hle : dist_base.getD (j + 1) 0 ≤ dist_base.getD i 0 :=
      hmono (j + 1) (by omega) i hi (by omega)
    have hbi := h1.1
    omega

theorem get_distance_code_eq (d i : Nat) (hi : i < 30) (hp : distPred d i) :
    get_distance_code d =
      some (i, dist_extra.getD i 0, d - dist_base.getD i 0) := by
  unfold get_distance_code
  refine distLoop_first 30 0 d i (Nat.zero_le i) (by omega) ?_ hp
  intro j hj1 hj2 hcontra
  exact absurd (distPred_unique d j i (by omega) hi hcontra hp) (by omega)

end Deflate

namespace Deflate

theorem lengthLoop_form : ∀ fuel i0 l c e ev,
    lengthLoop l i0 fuel = some (c, e, ev) →
    ∃ i, c = 257 + i ∧ e = length_extra.getD i 0 ∧
      ev = l - length_base.getD i 0 := by
  intro fuel
  induction fuel with
  | zero => intro i0 l c e ev h; simp [lengthLoop] at h
  | succ k ih =>
    intro i0 l c e ev h
    simp only [lengthLoop] at h
    split at h
    · simp only [Option.some.injEq, Prod.mk.injEq] at h
      obtain ⟨h1, h2, h3⟩ := h
      exact ⟨i0, h1.symm, h2.symm, h3.symm⟩
    · exact ih _ _ _ _ _ h

theorem distLoop_form : ∀ fuel i0 d c e ev,
    distLoop d i0 fuel = some (c, e, ev) →
    ∃ i, c = i ∧ e = dist_extra.getD i 0 ∧ ev = d - dist_base.getD i 0 := by
  intro fuel
  induction fuel with
  | zero => intro i0 d c e ev h; simp [distLoop] at h
  | succ k ih =>
    intro i0 d c e ev h
    simp only [distLoop] at h
    split at h
    · simp only [Option.some.injEq, Prod.mk.injEq] at h
      obtain ⟨h1, h2, h3⟩ := h
      exact ⟨i0, h1.symm, h2.symm, h3.symm⟩
    · exact ih _ _ _ _ _ h

theorem length_extra_le (i : Nat) : length_extra.getD i 0 ≤ 5 := by
  by_cases h : i < 29
  · have hb : ∀ j < 29, length_extra.getD j 0 ≤ 5 := by decide
    exact hb i h
  · have hlen : length_extra.length = 29 := rfl
    rw [List.getD_eq_default _ _ (by omega)]
    omega

theorem dist_extra_le (i : Nat) : dist_extra.getD i 0 ≤ 13 := by
  by_cases h : i < 30
  · have hb : ∀ j < 30, dist_extra.getD j 0 ≤ 13 := by decide
    exact hb i h
  · have hlen : dist_extra.length = 30 := rfl
    rw [List.getD_eq_default _ _ (by omega)]
    omega

theorem length_code_extra_le (l : Nat) :
    ((get_length_code l).getD (0, 0, 0)).2.1 ≤ 5 := by
  cases h : get_length_code l with
  | none => simp
  | some t =>
    obtain ⟨c, e, ev⟩ := t
    obtain ⟨i, h1, h2, h3⟩ := lengthLoop_form 29 0 l c e ev h
    simpa [h2] using length_extra_le i

theorem dist_code_extra_le (d : Nat) :
    ((get_distance_code d).getD (0, 0, 0)).2.1 ≤ 13 := by
  cases h : get_distance_code d with
  | none => simp
  | some t =>
    obtain ⟨c, e, ev⟩ := t
    obtain ⟨i, h1, h2, h3⟩ := distLoop_form 30 0 d c e ev h
    simpa [h2] using dist_extra_le i

theorem totalCallBits_append (l1 l2 : List (Nat × Nat)) :
    totalCallBits (l1 ++ l2) = totalCallBits l1 + totalCallBits l2 := by
  simp [totalCallBits]

theorem tokBits_lit_le (b : Nat) : tokBits (Tok.lit b) ≤ 9 := by
  simp only [tokBits, tokCalls]
  split <;> simp [totalCallBits]

theorem tokBits_mat_le (len dist : Nat) (h3 : 3 ≤ len) :
    tokBits (Tok.mat len dist) ≤ 9 * len := by
  have hD := dist_code_extra_le dist
  by_cases hl : len = 3
  · subst hl
    have hlc : get_length_code 3 = some (257, 0, 0) := by decide
    simp only [tokBits, tokCalls, hlc, Option.getD_some]
    rw [if_pos (by norm_num), if_neg (by norm_num)]
    simp only [totalCallBits_append]
    by_cases hd : 0 < ((get_distance_code dist).getD (0, 0, 0)).2.1
    · rw [if_pos hd]
      simp only [totalCallBits, List.map_cons, List.map_nil, List.sum_cons,
        List.sum_nil, List.map, List.nil_append]
      omega
    · rw [if_neg hd]
      simp only [totalCallBits, List.map_cons, List.map_nil, List.sum_cons,
        List.sum_nil, List.map, List.nil_append]
      omega
  · have hL := length_code_extra_le len
    simp only [tokBits, tokCalls]
    simp only [totalCallBits_append]
    have hb1 : totalCallBits
        (if ((get_length_code len).getD (0, 0, 0)).1 ≤ 279 then
          [(((get_length_code len).getD (0, 0, 0)).1 - 256, 7)]
        else [(0xC0 + (((get_length_code len).getD (0, 0, 0)).1 - 280), 8)]) ≤ 8 := by
      split <;> simp [totalCallBits]
    have hb2 : totalCallBits
        (if 0 < ((get_length_code len).getD (0, 0, 0)).2.1 then
          [(((get_length_code len).getD (0, 0, 0)).2.2,
            ((get_length_code len).getD (0, 0, 0)).2.1)]
        else []) ≤ ((get_length_code len).getD (0, 0, 0)).2.1 := by
      split <;> simp [totalCallBits]
    have hb3 : totalCallBits
        (if 0 < ((get_distance_code dist).getD (0, 0, 0)).2.1 then
          [(((get_distance_code dist).getD (0, 0, 0)).2.2,
            ((get_distance_code dist).getD (0, 0, 0)).2.1)]
        else []) ≤ ((get_distance_code dist).getD (0, 0, 0)).2.1 := by
      split <;> simp [totalCallBits]
    have hb4 : totalCallBits [(rev5 ((get_distance_code dist).getD (0, 0, 0)).1, 5)] = 5 := by
      simp [totalCallBits]
    omega

end Deflate

namespace Deflate

theorem runPacks_total : ∀ calls bb,
    totalBitsBB (runPacks calls bb) = totalBitsBB bb + totalCallBits calls ∧
    bb.cap ≤ (runPacks calls bb).cap := by
  intro calls
  induction calls with
  | nil => intro bb; exact ⟨by simp [runPacks, totalCallBits], le_rfl⟩
  | cons c rest ih =>
    intro bb
    have hrw : runPacks (c :: rest) bb = runPacks rest (write_bits bb c.1 c.2) := by
      simp [runPacks]
    obtain ⟨ht1, hcap1, _⟩ := write_bits_total bb c.1 c.2
    obtain ⟨iht, ihcap⟩ := ih (write_bits bb c.1 c.2)
    rw [hrw]
    constructor
    · rw [iht, ht1]
      simp [totalCallBits]
      omega
    · exact le_trans hcap1 ihcap

theorem tokCalls_sum_le (data : List Nat) :
    ∀ toks p, tokensGood data p toks →
      totalCallBits ((toks.map tokCalls).flatten) ≤ 9 * sumAdvance toks := by
  intro toks
  induction toks with
  | nil => intro p _; simp [totalCallBits, sumAdvance]
  | cons t rest ih =>
    intro p hg
    simp only [List.map_cons, List.flatten_cons, totalCallBits_append]
    have hsum : sumAdvance (t :: rest) = tokAdvance t + sumAdvance rest := by
      simp [sumAdvance]
    cases t with
    | lit b =>
      obtain ⟨_, _, hrest⟩ := hg
      have h1 : totalCallBits (tokCalls (Tok.lit b)) ≤ 9 := tokBits_lit_le b
      have h2 := ih (p + 1) hrest
      rw [hsum]
      simp only [tokAdvance]
      omega
    | mat len dist =>
      obtain ⟨hm, hrest⟩ := hg
      have h1 : totalCallBits (tokCalls (Tok.mat len dist)) ≤ 9 * len :=
        tokBits_mat_le len dist hm.1
      have h2 := ih (p + len) hrest
      rw [hsum]
      simp only [tokAdvance]
      omega

theorem deflatePreFlush_bound (data : List Nat) :
    (deflatePreFlush data).output.length < (deflatePreFlush data).cap := by
  obtain ⟨hg, hs⟩ := lz77Main_spec data data.length initLZ 0 (by omega)
  have hsum := tokCalls_sum_le data (lz77_compress data) 0 hg
  have hsum2 : sumAdvance (lz77_compress data) = data.length := hs
  rw [hsum2] at hsum
  obtain ⟨ht, hcap⟩ := runPacks_total (deflateCalls (lz77_compress data))
    (initBB (if 1024 < data.length * 2 then data.length * 2 else 1024))
  have htot : totalCallBits (deflateCalls (lz77_compress data)) =
      3 + (totalCallBits (((lz77_compress data).map tokCalls).flatten) + 7) := by
    simp [deflateCalls, totalCallBits, totalCallBits_append]
    omega
  have hinit : totalBitsBB
      (initBB (if 1024 < data.length * 2 then data.length * 2 else 1024)) = 0 := rfl
  have hicap : (initBB (if 1024 < data.length * 2 then data.length * 2 else 1024)).cap =
      (if 1024 < data.length * 2 then data.length * 2 else 1024) := rfl
  have hpf : totalBitsBB (deflatePreFlush data) =
      totalCallBits (deflateCalls (lz77_compress data)) := by
    unfold deflatePreFlush
    rw [ht, hinit, Nat.zero_add]
  have h8 : 8 * (deflatePreFlush data).output.length ≤ totalBitsBB (deflatePreFlush data) := by
    simp [totalBitsBB]
  have hc : (if 1024 < data.length * 2 then data.length * 2 else 1024) ≤
      (deflatePreFlush data).cap := by
    unfold deflatePreFlush
    rw [← hicap]
    exact hcap
  by_cases hbig : 1024 < data.length * 2
  · rw [if_pos hbig] at hc
    omega
  · rw [if_neg hbig] at hc
    omega

theorem deflate_flush_some (data : List Nat) :
    (flush_bits (deflatePreFlush data)).isSome = true := by
  have hb := deflatePreFlush_bound data
  rcases Nat.eq_zero_or_pos (deflatePreFlush data).count with h0 | h0
  · simp [flush_bits, h0]
  · simp [flush_bits, h0, hb]

end Deflate

namespace Deflate

/-! # Claim theorems -/

/-- C1: the spec claims `inflate(compress(S)) = S` against a reference
raw-DEFLATE inflate for every `S`, but the encoder packs the fixed
literal/length Huffman codes LSB first without bit-reversing them (its
comments claim the constants are pre-reversed; only distance codes are
reversed), so a conformant fixed-Huffman inflate mis-decodes the literal
`0x41`: the compressed stream decodes to the single byte `94`, not `65`. -/
theorem c1_roundtrip_code_bug :
    deflateBytes [65] = some [0x8B, 0x03, 0x00] ∧
    inflateFixed [0x8B, 0x03, 0x00] = some [94] ∧ (94 : Nat) ≠ 65 := by decide

/-- C2: replaying the token stream the matcher produces — literals appended,
matches copied byte-by-byte forward from `current_position − distance` —
reconstructs the input exactly and completely. -/
theorem c2_replay_reconstructs (data : List Nat) :
    replay (lz77_compress data) = data := by
  obtain ⟨hg, hs⟩ := lz77Main_spec data data.length initLZ 0 (by omega)
  unfold replay lz77_compress
  have h0 : ([] : List Nat) = data.take 0 := rfl
  rw [h0, replayFrom_good data _ 0 hg, hs]
  simp

/-- C3: every Match token `(len, dist)` emitted at stream position `p`
satisfies `3 ≤ len ≤ 258`, `1 ≤ dist ≤ min 32768 p`, its source bytes agree
with its target bytes, and the byte-by-byte forward copy of `len` bytes from
`p − dist` reproduces `S[p .. p+len)`. -/
theorem c3_match_valid (data : List Nat) (i len dist : Nat)
    (h : (lz77_compress data)[i]? = some (Tok.mat len dist)) :
    3 ≤ len ∧ len ≤ 258 ∧ 1 ≤ dist ∧
      dist ≤ min 32768 (streamPos (lz77_compress data) i) ∧
      (∀ j, j < len →
        data.getD (streamPos (lz77_compress data) i - dist + j) 0 =
          data.getD (streamPos (lz77_compress data) i + j) 0) ∧
      matchCopy dist (data.take (streamPos (lz77_compress data) i)) len =
        data.take (streamPos (lz77_compress data) i + len) := by
  obtain ⟨hg, _⟩ := lz77Main_spec data data.length initLZ 0 (by omega)
  have hm := tokensGood_get data (lz77_compress data) 0 i len dist hg h
  rw [Nat.zero_add] at hm
  obtain ⟨h3, h258, h1, h32768, hdp, hlen, hbytes⟩ := hm
  exact ⟨h3, h258, h1, le_min h32768 hdp, hbytes,
    matchCopy_take data (streamPos (lz77_compress data) i) len dist h1 hdp hlen hbytes⟩

/-- Witness for C3 at the tie-break input, whose seventh token is the match
`(length 6, distance 6)` at stream position 6. -/
theorem c3_match_valid_witness :
    3 ≤ 6 ∧ 6 ≤ 258 ∧ 1 ≤ 6 ∧
      6 ≤ min 32768
        (streamPos (lz77_compress [65, 66, 67, 68, 69, 70, 65, 66, 67, 68, 69, 70]) 6) ∧
      (∀ j, j < 6 →
        [65, 66, 67, 68, 69, 70, 65, 66, 67, 68, 69, 70].getD
            (streamPos (lz77_compress [65, 66, 67, 68, 69, 70, 65, 66, 67, 68, 69, 70]) 6
              - 6 + j) 0 =
          [65, 66, 67, 68, 69, 70, 65, 66, 67, 68, 69, 70].getD
            (streamPos (lz77_compress [65, 66, 67, 68, 69, 70, 65, 66, 67, 68, 69, 70]) 6
              + j) 0) ∧
      matchCopy 6
          ([65, 66, 67, 68, 69, 70, 65, 66, 67, 68, 69, 70].take
            (streamPos (lz77_compress [65, 66, 67, 68, 69, 70, 65, 66, 67, 68, 69, 70]) 6)) 6 =
        [65, 66, 67, 68, 69, 70, 65, 66, 67, 68, 69, 70].take
          (streamPos (lz77_compress [65, 66, 67, 68, 69, 70, 65, 66, 67, 68, 69, 70]) 6 + 6) :=
  c3_match_valid [65, 66, 67, 68, 69, 70, 65, 66, 67, 68, 69, 70] 6 6 6 (by decide)

/-- C4: the chain-walk candidate update keeps the incumbent on ties (it
replaces only on a strictly greater length), and on `"ABCDEFABCDEF"` the
matcher emits exactly six literals A–F followed by the match
`(length 6, distance 6)`. -/
theorem c4_tie_break :
    (∀ len dist bestLen bestDist : Nat, len ≤ bestLen →
      updateBest len dist bestLen bestDist = (bestLen, bestDist)) ∧
    lz77_compress [65, 66, 67, 68, 69, 70, 65, 66, 67, 68, 69, 70] =
      [Tok.lit 65, Tok.lit 66, Tok.lit 67, Tok.lit 68, Tok.lit 69, Tok.lit 70,
       Tok.mat 6 6] := by
  constructor
  · intro len dist bestLen bestDist hle
    unfold updateBest
    rw [if_neg (by omega)]
  · decide

/-- Witness for C4's tie-break condition: an equal-length candidate does not
replace the incumbent. -/
theorem c4_tie_break_witness : updateBest 3 7 3 2 = (3, 2) :=
  c4_tie_break.1 3 7 3 2 (by decide)

/-- C5: for every in-range length and distance the code lookups return the
triple of the spec's unique range-lookup index, and the embedded tables
equal the constants listed in the spec. -/
theorem c5_code_tables :
    (∀ l i, 3 ≤ l → l ≤ 258 → i < 29 → lenPred l i →
      (get_length_code l =
        some (257 + i, length_extra.getD i 0, l - length_base.getD i 0)) ∧
      ∀ j, j < 29 → lenPred l j → j = i) ∧
    (∀ d i, 1 ≤ d → d ≤ 32768 → i < 30 → distPred d i →
      (get_distance_code d =
        some (i, dist_extra.getD i 0, d - dist_base.getD i 0)) ∧
      ∀ j, j < 30 → distPred d j → j = i) ∧
    length_base = spec_length_base ∧ length_extra = spec_length_extra ∧
    dist_base = spec_dist_base ∧ dist_extra = spec_dist_extra := by
  refine ⟨?_, ?_, rfl, rfl, rfl, rfl⟩
  · intro l i _ _ hi hp
    exact ⟨get_length_code_eq l i hi hp,
      fun j hj hpj => lenPred_unique l j i hj hi hpj hp⟩
  · intro d i _ _ hi hp
    exact ⟨get_distance_code_eq d i hi hp,
      fun j hj hpj => distPred_unique d j i hj hi hpj hp⟩

/-- Witness for C5: length 10 is code 264 with no extra bits, distance 5 is
code 4 with one extra bit of value 0. -/
theorem c5_code_tables_witness :
    get_length_code 10 = some (264, 0, 0) ∧ get_distance_code 5 = some (4, 1, 0) :=
  ⟨(c5_code_tables.1 10 7 (by decide) (by decide) (by decide) (by decide)).1,
   (c5_code_tables.2.1 5 4 (by decide) (by decide) (by decide) (by decide)).1⟩

end Deflate

namespace Deflate

/-- C6 counterexample: with only the documented precondition `value < 2^n`,
the call sequence `pack(0, 7); pack(2^25, 26)` overflows the 32-bit
accumulator — output bit 7 + 25 = 32 is 0 although bit 25 of the packed
value is 1 — so the claim as stated fails. -/
theorem c6_counterexample :
    ((0 : Nat) < 2 ^ 7 ∧ (33554432 : Nat) < 2 ^ 26) ∧
    (flush_bits (runPacks [(0, 7), (33554432, 26)] (initBB 1024))).map
      (fun bbf => outBit bbf.output 32) = some false ∧
    Nat.testBit 33554432 25 = true := by decide

/-- C6 (amended): when each call also keeps the accumulator within 32 bits
(`pending + n ≤ 32`), every `pack(value, n)` appends exactly the low `n`
bits of `value` LSB first: output bit `total_bits_written + k` of the
flushed byte sequence is bit `k` of the value. -/
theorem c6_pack_stream (calls : List (Nat × Nat)) (cap : Nat) (bbf : BitBuffer)
    (hg : goodCalls 0 calls)
    (hf : flush_bits (runPacks calls (initBB cap)) = some bbf) :
    ∀ j, j < totalCallBits calls →
      outBit bbf.output j = (streamOfCalls calls).getD j false := by
  obtain ⟨hc, hb, ht, hpres, hnew⟩ := runPacks_spec calls (initBB cap)
    (by simp [initBB]) (by simp [initBB]) hg
  intro j hj
  have hz : totalBitsBB (initBB cap) = 0 := rfl
  rw [flush_outBit _ _ hc hf j (by omega)]
  have hn := hnew j hj
  rw [hz, Nat.zero_add] at hn
  exact hn

/-- Witness for C6: packing `1` as one bit then `1` as two bits produces the
byte 3; output bit 2 is the second (zero) bit of the second value. -/
theorem c6_pack_stream_witness :
    outBit [3] 2 = (streamOfCalls [(1, 1), (1, 2)]).getD 2 false :=
  c6_pack_stream [(1, 1), (1, 2)] 4 ⟨3, 3, [3], 4⟩ (by decide) (by decide) 2 (by decide)

/-- C7: after any sequence of `write_bits` calls satisfying `value < 2^n`,
fewer than 8 bits are pending and all accumulator bits at or above the
pending count are zero; hence `flush_bits` emits at most one extra byte
whose bits at or above the pending count are zero. -/
theorem c7_bitbuffer_invariant (calls : List (Nat × Nat)) (cap : Nat)
    (hfit : valuesFit calls) :
    ((runPacks calls (initBB cap)).count < 8 ∧
      (runPacks calls (initBB cap)).bits < 2 ^ (runPacks calls (initBB cap)).count) ∧
    ∀ bbf, flush_bits (runPacks calls (initBB cap)) = some bbf →
      bbf.output.length ≤ (runPacks calls (initBB cap)).output.length + 1 ∧
      ∀ r, (runPacks calls (initBB cap)).count ≤ r →
        Nat.testBit (bbf.output.getD ((runPacks calls (initBB cap)).output.length) 0) r
          = false := by
  obtain ⟨hc, hb⟩ := runPacks_inv calls (initBB cap)
    (by simp [initBB]) (by simp [initBB]) hfit
  refine ⟨⟨hc, hb⟩, ?_⟩
  intro bbf hf
  unfold flush_bits at hf
  split at hf
  · rename_i hpos
    split at hf
    · rename_i hcap
      have hbf : bbf = { runPacks calls (initBB cap) with
          output := (runPacks calls (initBB cap)).output ++
            [(runPacks calls (initBB cap)).bits &&& 255] } := by
        injection hf with h
        exact h.symm
      subst hbf
      constructor
      · simp
      · intro r hr
        rw [getD_append_ge _ _ _ le_rfl, Nat.sub_self, List.getD_cons_zero,
          Nat.testBit_and]
        have hb0 : Nat.testBit (runPacks calls (initBB cap)).bits r = false :=
          Nat.testBit_lt_two_pow
            (lt_of_lt_of_le hb (Nat.pow_le_pow_right (by omega) hr))
        rw [hb0, Bool.false_and]
    · exact absurd hf (by simp)
  · rename_i hpos
    have hbf : bbf = runPacks calls (initBB cap) := by
      injection hf with h
      exact h.symm
    subst hbf
    constructor
    · omega
    · intro r hr
      rw [List.getD_eq_default _ _ le_rfl]
      exact Nat.zero_testBit r

/-- Witness for C7 after the single call `pack(5, 3)`. -/
theorem c7_bitbuffer_invariant_witness :
    (((runPacks [(5, 3)] (initBB 1024)).count < 8 ∧
      (runPacks [(5, 3)] (initBB 1024)).bits <
        2 ^ (runPacks [(5, 3)] (initBB 1024)).count) ∧
    ∀ bbf, flush_bits (runPacks [(5, 3)] (initBB 1024)) = some bbf →
      bbf.output.length ≤ (runPacks [(5, 3)] (initBB 1024)).output.length + 1 ∧
      ∀ r, (runPacks [(5, 3)] (initBB 1024)).count ≤ r →
        Nat.testBit
          (bbf.output.getD ((runPacks [(5, 3)] (initBB 1024)).output.length) 0) r
          = false) :=
  c7_bitbuffer_invariant [(5, 3)] 1024 (by decide)

/-- C8: compressing the empty input yields the empty token stream and the
exact 2-byte output `[0x03, 0x00]`. -/
theorem c8_empty_input :
    lz77_compress [] = [] ∧ deflateBytes [] = some [0x03, 0x00] := by decide

/-- C9 counterexample: with the input readable (empty file) and the output
file opening fine but `fwrite` only managing 1 of the 2 stream bytes, the
process still exits 0 and a partial output file `[0x03]` is left behind —
the claim's "exit 1 if the output cannot be written, with no partial
results" fails. -/
theorem c9_counterexample :
    deflateRun ⟨true, [], 0, true, 1⟩ = (0, some [0x03]) ∧
    deflateBytes [] = some [0x03, 0x00] ∧
    some [(0x03 : Nat)] ≠ some [(0x03 : Nat), 0x00] := by decide

/-- C9 (amended): the entry point exits 1 with no output produced when the
input cannot be opened, cannot be read in full, or the output cannot be
opened; when all three succeed it exits 0 and writes whatever prefix of the
compressed stream `fwrite` manages (the whole stream when the write
completes) — a short write is not detected and still exits 0. -/
theorem c9_exit_codes (env : FsEnv) :
    ((env.inputOpenOk = false ∨
      (0 < env.inputContent.length ∧ env.readCount ≠ env.inputContent.length) ∨
      env.outputOpenOk = false) →
      deflateRun env = (1, none)) ∧
    (env.inputOpenOk = true →
      (env.inputContent.length = 0 ∨ env.readCount = env.inputContent.length) →
      env.outputOpenOk = true →
      (deflateRun env).1 = 0 ∧
      (deflateRun env).2 =
        some (((deflateBytes env.inputContent).getD []).take env.writeCount) ∧
      (((deflateBytes env.inputContent).getD []).length ≤ env.writeCount →
        (deflateRun env).2 = some ((deflateBytes env.inputContent).getD []))) := by
  constructor
  · intro h
    unfold deflateRun
    by_cases h1 : env.inputOpenOk = false
    · rw [if_pos h1]
    · rw [if_neg h1]
      by_cases h2 : 0 < env.inputContent.length ∧
          env.readCount ≠ env.inputContent.length
      · rw [if_pos h2]
      · rw [if_neg h2]
        have h3 : env.outputOpenOk = false := by
          rcases h with h | h | h
          · exact absurd h h1
          · exact absurd h h2
          · exact h
        rw [if_pos h3]
  · intro hi hread ho
    unfold deflateRun
    rw [if_neg (by simp [hi]), if_neg (by omega), if_neg (by simp [ho])]
    refine ⟨rfl, rfl, fun hw => ?_⟩
    rw [List.take_of_length_le hw]

/-- Witness for C9: a missing input file exits 1 with no output. -/
theorem c9_exit_codes_witness :
    deflateRun ⟨false, [], 0, true, 2⟩ = (1, none) :=
  (c9_exit_codes ⟨false, [], 0, true, 2⟩).1 (Or.inl rfl)

/-- C10: for every input, after the encoder's full pack sequence the output
position is strictly below the buffer capacity, so the unguarded final
store in `flush_bits` (modelled as Option-returning indexing) never hits
the out-of-bounds branch. -/
theorem c10_flush_in_bounds (data : List Nat) :
    (deflatePreFlush data).output.length < (deflatePreFlush data).cap ∧
    (flush_bits (deflatePreFlush data)).isSome = true :=
  ⟨deflatePreFlush_bound data, deflate_flush_some data⟩

end Deflate
